import Mathlib

/-
  Verification development for the street-sign transliteration server
  (server.py).  Text is modelled as a list of Unicode codepoints
  (List Nat); file contents as lists of bytes (List Nat); the external
  collaborators (the sanscript transliteration engine, the gTTS speech
  synthesiser) are parameters of type `... → Option ...`, where `none`
  models a raised exception.
-/

/-- Python Unicode whitespace predicate, as used by `str.strip()` and the
regular-expression class backslash-s in unicode mode. -/
def pyIsSpace (cp : Nat) : Bool :=
  (9 ≤ cp && cp ≤ 13) || (28 ≤ cp && cp ≤ 31) || cp == 32 || cp == 0x85 ||
  cp == 0xA0 || cp == 0x1680 || (0x2000 ≤ cp && cp ≤ 0x200A) ||
  cp == 0x2028 || cp == 0x2029 || cp == 0x202F || cp == 0x205F || cp == 0x3000

/-- Python `str.strip()`: drop leading and trailing whitespace. -/
def pyStrip (l : List Nat) : List Nat :=
  ((l.dropWhile pyIsSpace).reverse.dropWhile pyIsSpace).reverse

/-- The `SCRIPT_RANGES` table of server.py: inclusive codepoint ranges per
script, in the dictionary's (insertion) enumeration order. -/
def SCRIPT_RANGES : List (String × List (Nat × Nat)) :=
  [("devanagari", [(0x0900, 0x097F)]),
   ("bengali",    [(0x0980, 0x09FF)]),
   ("gurmukhi",   [(0x0A00, 0x0A7F)]),
   ("gujarati",   [(0x0A80, 0x0AFF)]),
   ("oriya",      [(0x0B00, 0x0B7F)]),
   ("tamil",      [(0x0B80, 0x0BFF)]),
   ("telugu",     [(0x0C00, 0x0C7F)]),
   ("kannada",    [(0x0C80, 0x0CFF)]),
   ("malayalam",  [(0x0D00, 0x0D7F)]),
   ("latin",      [(0x0000, 0x007F)])]

/-- Membership of a codepoint in a list of inclusive ranges (the inner two
loops of `detect_script`; the `break` makes each character count at most
once per script). -/
def inRanges (ranges : List (Nat × Nat)) (cp : Nat) : Bool :=
  ranges.any fun r => r.1 ≤ cp && cp ≤ r.2

/-- Per-script counter of `detect_script`: the number of characters of the
text whose codepoint lies in one of the script's ranges. -/
def countMatches (ranges : List (Nat × Nat)) (text : List Nat) : Nat :=
  (text.filter (inRanges ranges)).length

/-- The `counts` dictionary of `detect_script` after the scan, as an
association list in the fixed enumeration order of `SCRIPT_RANGES`. -/
def countsList (text : List Nat) : List (String × Nat) :=
  SCRIPT_RANGES.map fun p => (p.1, countMatches p.2 text)

/-- One step of Python `max(..., key=lambda x: x[1])`: the running best is
replaced only when the candidate's count is strictly greater, so the first
maximal element wins. -/
def pyMaxStep (b y : String × Nat) : String × Nat :=
  if b.2 < y.2 then y else b

/-- Python `max(..., key=lambda x: x[1])` over a nonempty sequence (the
empty case never arises: the counts list always has ten entries). -/
def pyMaxList : List (String × Nat) → String × Nat
  | [] => ("unknown", 0)
  | c :: cs => cs.foldl pyMaxStep c

/-- `detect_script` of server.py: `unknown` for empty or all-whitespace
text, otherwise the first script attaining the maximal counter, or
`unknown` when that maximal counter is zero. -/
def detect_script (text : List Nat) : String :=
  if text.isEmpty || text.all pyIsSpace then "unknown"
  else
    let best := pyMaxList (countsList text)
    if 0 < best.2 then best.1 else "unknown"

/-- The `SANSCRIPT_MAP` table of server.py: script name to sanscript
scheme identifier. -/
def SANSCRIPT_MAP : List (String × String) :=
  [("devanagari", "devanagari"),
   ("bengali", "bengali"),
   ("gurmukhi", "gurmukhi"),
   ("gujarati", "gujarati"),
   ("oriya", "oriya"),
   ("tamil", "tamil"),
   ("telugu", "telugu"),
   ("kannada", "kannada"),
   ("malayalam", "malayalam"),
   ("latin", "itrans")]

/-- `SANSCRIPT_MAP.get(detected_script, "iast")`: scheme resolution for the
source script, defaulting to `iast`. -/
def fromSchemeFor (s : String) : String :=
  (SANSCRIPT_MAP.lookup s).getD "iast"

/-- `SANSCRIPT_MAP.get(target_script, "itrans")`: scheme resolution for the
target script, defaulting to `itrans`. -/
def toSchemeFor (s : String) : String :=
  (SANSCRIPT_MAP.lookup s).getD "itrans"

/-- The transliteration step of `transliterate_image` (server.py lines
277-291): identity short-circuit when the resolved schemes coincide,
otherwise the direct engine call, then on failure the two-hop fallback
through `iast`, and on failure of that the original text.  The engine is a
parameter; `none` models a raised exception. -/
def convert (engine : List Nat → String → String → Option (List Nat))
    (text : List Nat) (src tgt : String) : List Nat :=
  let f := fromSchemeFor src
  let t := toSchemeFor tgt
  if f = t then text
  else
    match engine text f t with
    | some r => r
    | none =>
      match engine text f "iast" with
      | some mid =>
        match engine mid "iast" t with
        | some r2 => r2
        | none => text
      | none => text

/-
  The word-character classification used by the regular-expression
  engine's backslash-w and backslash-b (Unicode alphanumerics plus the
  underscore) is Unicode-database content external to server.py, so the
  schwa-deletion model takes it as a parameter `w : Nat → Bool`, exactly
  as the transliteration and synthesis engines are parameters.  Every
  statement below is proved for an arbitrary `w` and therefore holds for
  the regex engine's actual table.
-/

/-- Whether the `a\b` pattern's word boundary follows an `a` whose
successor is `next` (`none` at end of text): `a` is a word character, so
the boundary exists exactly when the successor is absent or is not a word
character according to the engine's classification `w`. -/
def boundaryAfter (w : Nat → Bool) : Option Nat → Bool
  | none => true
  | some d => !w d

/-- The first substitution of `schwa_delete_for_devanagari_to_latin`:
remove every character `a` that is followed by a word boundary
(single left-to-right pass of the length-one regex matches), for the
word-character classification `w`. -/
def dropSchwa (w : Nat → Bool) : List Nat → List Nat
  | [] => []
  | [c] => if c == 97 then [] else [c]
  | c :: d :: rest =>
    if c == 97 && !w d then dropSchwa w (d :: rest)
    else c :: dropSchwa w (d :: rest)

/-- Worker for whitespace collapapsing: the flag records whether the
previous character was whitespace (in which case the run's single output
space has already been emitted). -/
def collapseGo : Bool → List Nat → List Nat
  | _, [] => []
  | prevSpace, c :: rest =>
    if pyIsSpace c then
      if prevSpace then collapseGo true rest
      else 32 :: collapseGo true rest
    else c :: collapseGo false rest

/-- The second substitution of `schwa_delete_for_devanagari_to_latin`:
replace every maximal whitespace run by a single space. -/
def collapseWs (l : List Nat) : List Nat :=
  collapseGo false l

/-- `schwa_delete_for_devanagari_to_latin` of server.py: empty text is
returned as is, otherwise drop word-final `a` characters, collapse
whitespace runs and strip; `w` is the regex engine's word-character
classification. -/
def schwa_delete_for_devanagari_to_latin (w : Nat → Bool) (l : List Nat) : List Nat :=
  if l.isEmpty then l
  else pyStrip (collapseWs (dropSchwa w l))

/-- The successor of each position of a text: `some` of the following
codepoint, or `none` at the last position. -/
def successors (l : List Nat) : List (Option Nat) :=
  (l.drop 1).map some ++ [none]

/-- Spec-side statement of the schwa-removal substitution, following the
spec's words: remove every trailing lowercase `a` at a word boundary, i.e.
drop exactly those characters that are `a` and whose successor is absent
or not a word character.  To be compared with `dropSchwa`. -/
def schwaRemovedSpec (w : Nat → Bool) (l : List Nat) : List Nat :=
  (l.zip (successors l)).filterMap fun cd =>
    if cd.1 == 97 && boundaryAfter w cd.2 then none else some cd.1

/-- The post-processing gate of `transliterate_image` (server.py lines
293-295): schwa deletion fires exactly for the devanagari-to-latin pair. -/
def postProcess (w : Nat → Bool) (detected target : String)
    (transliterated : List Nat) : List Nat :=
  if detected = "devanagari" && target = "latin" then
    schwa_delete_for_devanagari_to_latin w transliterated
  else transliterated

/-- The transliterated text a request produces: conversion from the
detected script to the target script, then post-processing (server.py
lines 276-295). -/
def pipelineTransliterated (engine : List Nat → String → String → Option (List Nat))
    (w : Nat → Bool) (extracted : List Nat) (target : String) : List Nat :=
  postProcess w (detect_script extracted) target
    (convert engine extracted (detect_script extracted) target)

/-- The text handed to speech synthesis (server.py line 300): the original
extracted text unless the detected script is latin, in which case the
transliterated text. -/
def ttsText (engine : List Nat → String → String → Option (List Nat))
    (w : Nat → Bool) (extracted : List Nat) (target : String) : List Nat :=
  if detect_script extracted ≠ "latin" then extracted
  else pipelineTransliterated engine w extracted target

/-- Concatenation of a list of byte strings in order. -/
def concatAll : List (List Nat) → List Nat
  | [] => []
  | x :: xs => x ++ concatAll xs

/-- Outcome of the chunked synthesis attempt: the returned success flag,
the content of the final artifact if one was written, and the temporary
chunk artifacts still on disk afterwards (in creation order). -/
structure ChunkOutcome where
  success : Bool
  final : Option (List Nat)
  temps : List (List Nat)
deriving DecidableEq

/-- The per-piece loop and merge of `_safe_tts_save_chunks` (server.py
lines 148-179), over the pieces produced by the sentence split: each piece
is stripped and skipped if empty; a successful synthesis call appends a
temporary artifact; a failed call deletes all temporaries created so far
and reports failure; after the loop the temporaries are concatenated into
the final artifact, in order, and deleted. -/
def chunkLoop (synth : List Nat → Option (List Nat)) :
    List (List Nat) → List (List Nat) → ChunkOutcome
  | temps, [] => ⟨true, some (concatAll temps), []⟩
  | temps, p :: rest =>
    if pyStrip p = [] then chunkLoop synth temps rest
    else
      match synth (pyStrip p) with
      | some bytes => chunkLoop synth (temps ++ [bytes]) rest
      | none => ⟨false, none, []⟩

/-- `_safe_tts_save_chunks` from the pieces onward: run the loop with no
temporaries yet. -/
def safe_tts_save_chunks (synth : List Nat → Option (List Nat))
    (pieces : List (List Nat)) : ChunkOutcome :=
  chunkLoop synth [] pieces

/-- The concatenation, in original order, of the synthesis outputs of the
non-empty stripped pieces. -/
def expectedConcat (synth : List Nat → Option (List Nat))
    (pieces : List (List Nat)) : List Nat :=
  concatAll (((pieces.map pyStrip).filter (fun q => q ≠ [])).map
    fun q => (synth q).getD [])

/-- Python `f.read(n)` after `f.seek(start)`: a negative `n` reads to end
of file, otherwise at most `n` bytes are read (capped at end of file). -/
def pyRead (file : List Nat) (start : Nat) (len : Int) : List Nat :=
  if len < 0 then file.drop start else (file.drop start).take len.toNat

/-- An HTTP response of the range file server: status, body, the
Content-Range header as a (start, end, size) triple when present, whether
an Accept-Ranges header is present, and the Content-Length header. -/
structure RangeResponse where
  status : Nat
  body : List Nat
  contentRange : Option (Nat × Nat × Nat)
  acceptRanges : Bool
  contentLength : Option Int
deriving DecidableEq

/-- `send_file_partial` of server.py (lines 212-241), over the file's
bytes and the parsed Range header (`none` when the header is absent or
does not match the pattern, in which case the full file is served; the
parsed form is the start and the optional end).  An absent end defaults to
size - 1; a start at or past the file size yields 416 with an empty body;
otherwise status 206 with the bytes read at offset start and the three
range headers. -/
def send_file_ranged (file : List Nat) (rangeParsed : Option (Nat × Option Nat)) :
    RangeResponse :=
  match rangeParsed with
  | none => ⟨200, file, none, false, some (file.length : Int)⟩
  | some (start, endOpt) =>
    let fileSize := file.length
    let endv := endOpt.getD (fileSize - 1)
    if fileSize ≤ start then ⟨416, [], none, false, none⟩
    else
      let len : Int := (endv : Int) - (start : Int) + 1
      ⟨206, pyRead file start len, some (start, endv, fileSize), true, some len⟩

/-- Concatenation distributes over list append. -/
theorem concatAll_append (a b : List (List Nat)) :
    concatAll (a ++ b) = concatAll a ++ concatAll b := by
  induction a with
  | nil => simp [concatAll]
  | cons x xs ih => simp [concatAll, ih]

/-- Unfolding of `expectedConcat` at a cons. -/
theorem expectedConcat_cons (synth : List Nat → Option (List Nat))
    (p : List Nat) (rest : List (List Nat)) :
    expectedConcat synth (p :: rest) =
      if pyStrip p = [] then expectedConcat synth rest
      else (synth (pyStrip p)).getD [] ++ expectedConcat synth rest := by
  by_cases hp : pyStrip p = [] <;>
    simp [expectedConcat, hp, concatAll]

/-- When every synthesis call succeeds, the loop writes the concatenation
of the accumulated temporaries and the per-piece outputs, and deletes all
temporaries. -/
theorem chunkLoop_all_ok (synth : List Nat → Option (List Nat))
    (pieces : List (List Nat))
    (h : ∀ p ∈ pieces, pyStrip p ≠ [] → (synth (pyStrip p)).isSome) :
    ∀ temps, chunkLoop synth temps pieces =
      ⟨true, some (concatAll temps ++ expectedConcat synth pieces), []⟩ := by
  induction pieces with
  | nil =>
    intro temps
    simp [chunkLoop, expectedConcat, concatAll]
  | cons p rest ih =>
    intro temps
    have hrest : ∀ q ∈ rest, pyStrip q ≠ [] → (synth (pyStrip q)).isSome := by
      intro q hq
      exact h q (List.mem_cons_of_mem _ hq)
    by_cases hp : pyStrip p = []
    · rw [chunkLoop, if_pos hp, ih hrest, expectedConcat_cons, if_pos hp]
    · have hs := h p (List.mem_cons_self _ _) hp
      rcases Option.isSome_iff_exists.mp hs with ⟨bytes, hb⟩
      rw [chunkLoop, if_neg hp, hb]
      show chunkLoop synth (temps ++ [bytes]) rest = _
      rw [ih hrest (temps ++ [bytes]), expectedConcat_cons, if_neg hp, hb]
      simp [concatAll_append, concatAll, List.append_assoc]

/-- C2: in the chunked synthesis fallback, if every per-chunk synthesis
call succeeds, the final artifact is exactly the concatenation of the
per-chunk artifacts in original chunk order, and no temporary chunk
artifact remains afterwards. -/
theorem safe_tts_save_chunks_concat (synth : List Nat → Option (List Nat))
    (pieces : List (List Nat))
    (h : ∀ p ∈ pieces, pyStrip p ≠ [] → (synth (pyStrip p)).isSome) :
    safe_tts_save_chunks synth pieces =
      ⟨true, some (expectedConcat synth pieces), []⟩ := by
  have hloop := chunkLoop_all_ok synth pieces h []
  simpa [safe_tts_save_chunks, concatAll] using hloop

/-- Witness for C2 at a concrete piece list and synthesiser. -/
theorem safe_tts_save_chunks_concat_witness :
    (∀ p ∈ [[97], [], [98, 32]], pyStrip p ≠ [] →
      ((fun q => some (q ++ [0])) (pyStrip p) : Option (List Nat)).isSome) ∧
    safe_tts_save_chunks (fun q => some (q ++ [0])) [[97], [], [98, 32]] =
      ⟨true, some (expectedConcat (fun q => some (q ++ [0])) [[97], [], [98, 32]]), []⟩ :=
  ⟨by decide, safe_tts_save_chunks_concat (fun q => some (q ++ [0])) [[97], [], [98, 32]] (by decide)⟩

/-- When some non-empty piece's synthesis call fails, the loop fails, no
final artifact is written, and no temporaries remain. -/
theorem chunkLoop_fail (synth : List Nat → Option (List Nat))
    (pieces : List (List Nat))
    (h : ∃ p ∈ pieces, pyStrip p ≠ [] ∧ synth (pyStrip p) = none) :
    ∀ temps, chunkLoop synth temps pieces = ⟨false, none, []⟩ := by
  induction pieces with
  | nil =>
    rcases h with ⟨p, hp, _⟩
    simp at hp
  | cons p rest ih =>
    intro temps
    rcases h with ⟨q, hq, hqne, hqnone⟩
    by_cases hp : pyStrip p = []
    · have hqrest : q ∈ rest := by
        rcases List.mem_cons.mp hq with hq1 | hq2
        · subst hq1; exact absurd hp hqne
        · exact hq2
      rw [chunkLoop, if_pos hp]
      exact ih ⟨q, hqrest, hqne, hqnone⟩ temps
    · cases hb : synth (pyStrip p) with
      | none => rw [chunkLoop, if_neg hp, hb]
      | some bytes =>
        have hqrest : q ∈ rest := by
          rcases List.mem_cons.mp hq with hq1 | hq2
          · subst hq1; rw [hqnone] at hb; cases hb
          · exact hq2
        rw [chunkLoop, if_neg hp, hb]
        exact ih ⟨q, hqrest, hqne, hqnone⟩ (temps ++ [bytes])

/-- C3: in the chunked synthesis fallback, if any per-chunk synthesis call
fails, all temporary chunk artifacts created so far are deleted, no final
artifact is produced, and the overall result is failure. -/
theorem safe_tts_save_chunks_fail (synth : List Nat → Option (List Nat))
    (pieces : List (List Nat))
    (h : ∃ p ∈ pieces, pyStrip p ≠ [] ∧ synth (pyStrip p) = none) :
    safe_tts_save_chunks synth pieces = ⟨false, none, []⟩ :=
  chunkLoop_fail synth pieces h []

/-- Witness for C3 at a concrete piece list with a failing middle chunk. -/
theorem safe_tts_save_chunks_fail_witness :
    (∃ p ∈ [[98], [97], [99]], pyStrip p ≠ [] ∧
      (fun q => if q = [97] then none else some q) (pyStrip p) = (none : Option (List Nat))) ∧
    safe_tts_save_chunks (fun q => if q = [97] then none else some q) [[98], [97], [99]] =
      ⟨false, none, []⟩ :=
  ⟨by decide, safe_tts_save_chunks_fail (fun q => if q = [97] then none else some q)
    [[98], [97], [99]] (by decide)⟩

/-- C4: when the resolved schemes differ and the direct engine call
fails, `convert` returns the two-hop fallback through `iast` when both
hops succeed, and the original text unchanged when either hop fails; in
particular no engine failure ever propagates. -/
theorem convert_fallback_total (engine : List Nat → String → String → Option (List Nat))
    (text : List Nat) (s t : String)
    (hne : fromSchemeFor s ≠ toSchemeFor t)
    (hfail : engine text (fromSchemeFor s) (toSchemeFor t) = none) :
    convert engine text s t =
      ((engine text (fromSchemeFor s) "iast").bind
        fun mid => engine mid "iast" (toSchemeFor t)).getD text := by
  simp only [convert]
  rw [if_neg hne, hfail]
  cases h1 : engine text (fromSchemeFor s) "iast" with
  | none => simp
  | some mid =>
    cases h2 : engine mid "iast" (toSchemeFor t) with
    | none => simp [h2]
    | some r2 => simp [h2]

/-- Witness for C4 at a concrete always-failing engine. -/
theorem convert_fallback_total_witness :
    fromSchemeFor "devanagari" ≠ toSchemeFor "latin" ∧
    convert (fun _ _ _ => none) [2325] "devanagari" "latin" = [2325] :=
  ⟨by decide, by
    have h := convert_fallback_total (fun _ _ _ => none) [2325] "devanagari" "latin"
      (by decide) rfl
    simpa using h⟩

/-- Counterexample to C5 as stated: for the unmapped script value
`unknown`, the source scheme defaults to `iast` but the target scheme
defaults to `itrans`, so `convert` with equal source and target scripts
invokes the engine and need not return the text unchanged. -/
theorem convert_identity_ce :
    convert (fun txt _ _ => some (txt ++ [33])) [107] "unknown" "unknown" ≠ [107] := by
  decide

/-- C5 (amended): for every script present in the scheme table, both
resolutions give the same scheme, so conversion from a script to itself
returns the text unchanged for every engine (the engine is not
consulted). -/
theorem convert_identity_mapped (engine : List Nat → String → String → Option (List Nat))
    (x : List Nat) (S : String) (h : (SANSCRIPT_MAP.lookup S).isSome) :
    convert engine x S S = x := by
  rcases Option.isSome_iff_exists.mp h with ⟨v, hv⟩
  simp [convert, fromSchemeFor, toSchemeFor, hv]

/-- Witness for the amended C5 at the script `tamil`. -/
theorem convert_identity_mapped_witness :
    (SANSCRIPT_MAP.lookup "tamil").isSome ∧
    convert (fun _ _ _ => none) [97] "tamil" "tamil" = [97] :=
  ⟨by decide, convert_identity_mapped (fun _ _ _ => none) [97] "tamil" (by decide)⟩

/-- The running best of Python max never decreases below its start. -/
theorem foldl_pyMaxStep_base_le (cs : List (String × Nat)) :
    ∀ c : String × Nat, c.2 ≤ (cs.foldl pyMaxStep c).2 := by
  induction cs with
  | nil => intro c; exact le_refl _
  | cons y ys ih =>
    intro c
    simp only [List.foldl_cons]
    refine le_trans ?_ (ih (pyMaxStep c y))
    unfold pyMaxStep
    split
    · exact le_of_lt (by assumption)
    · exact le_refl _

/-- The result of Python max dominates the start and every element. -/
theorem foldl_pyMaxStep_ge (cs : List (String × Nat)) :
    ∀ c : String × Nat, ∀ y ∈ c :: cs, y.2 ≤ (cs.foldl pyMaxStep c).2 := by
  induction cs with
  | nil =>
    intro c y hy
    rcases List.mem_singleton.mp hy with rfl
    exact le_refl _
  | cons z zs ih =>
    intro c y hy
    simp only [List.foldl_cons]
    have hstep_c : c.2 ≤ (pyMaxStep c z).2 := by
      unfold pyMaxStep; split
      · exact le_of_lt (by assumption)
      · exact le_refl _
    have hstep_z : z.2 ≤ (pyMaxStep c z).2 := by
      unfold pyMaxStep; split
      · exact le_refl _
      · exact le_of_not_lt (by assumption)
    rcases List.mem_cons.mp hy with rfl | hy2
    · exact le_trans hstep_c (foldl_pyMaxStep_base_le zs _)
    · rcases List.mem_cons.mp hy2 with rfl | hy3
      · exact le_trans hstep_z (foldl_pyMaxStep_base_le zs _)
      · exact ih (pyMaxStep c z) y (List.mem_cons_of_mem _ hy3)

/-- The result of Python max is the start or one of the elements. -/
theorem foldl_pyMaxStep_mem (cs : List (String × Nat)) :
    ∀ c : String × Nat, cs.foldl pyMaxStep c = c ∨ cs.foldl pyMaxStep c ∈ cs := by
  induction cs with
  | nil => intro c; left; rfl
  | cons z zs ih =>
    intro c
    simp only [List.foldl_cons]
    rcases ih (pyMaxStep c z) with h | h
    · rw [h]; unfold pyMaxStep; split
      · right; exact List.mem_cons_self _ _
      · left; rfl
    · right; exact List.mem_cons_of_mem _ h

/-- Full characterisation of Python max with a strict comparison: either
the start already dominates everything and is kept, or the result is the
first element strictly exceeding the start and everything before it. -/
theorem foldl_pyMaxStep_spec (cs : List (String × Nat)) :
    ∀ c : String × Nat,
      (cs.foldl pyMaxStep c = c ∧ ∀ y ∈ cs, y.2 ≤ c.2) ∨
      (∃ l1 l2, cs = l1 ++ (cs.foldl pyMaxStep c) :: l2 ∧
        c.2 < (cs.foldl pyMaxStep c).2 ∧
        (∀ y ∈ l1, y.2 < (cs.foldl pyMaxStep c).2) ∧
        (∀ y ∈ l2, y.2 ≤ (cs.foldl pyMaxStep c).2)) := by
  induction cs with
  | nil =>
    intro c
    left
    exact ⟨rfl, by simp⟩
  | cons z zs ih =>
    intro c
    simp only [List.foldl_cons]
    by_cases hz : c.2 < z.2
    · have hstep : pyMaxStep c z = z := if_pos hz
      rw [hstep]
      rcases ih z with ⟨heq, hall⟩ | ⟨l1, l2, hsplit, hlt, hl1, hl2⟩
      · right
        exact ⟨[], zs, by rw [heq]; rfl, by rw [heq]; exact hz, by simp,
          by rw [heq]; exact hall⟩
      · right
        refine ⟨z :: l1, l2, ?_, lt_trans hz hlt, ?_, hl2⟩
        · conv_lhs => rw [hsplit]
          rfl
        · intro y hy
          rcases List.mem_cons.mp hy with rfl | hy2
          · exact hlt
          · exact hl1 y hy2
    · have hstep : pyMaxStep c z = c := if_neg hz
      rw [hstep]
      have hzc : z.2 ≤ c.2 := le_of_not_lt hz
      rcases ih c with ⟨heq, hall⟩ | ⟨l1, l2, hsplit, hlt, hl1, hl2⟩
      · left
        refine ⟨heq, ?_⟩
        intro y hy
        rcases List.mem_cons.mp hy with rfl | hy2
        · exact hzc
        · exact hall y hy2
      · right
        refine ⟨z :: l1, l2, ?_, hlt, ?_, hl2⟩
        · conv_lhs => rw [hsplit]
          rfl
        · intro y hy
          rcases List.mem_cons.mp hy with rfl | hy2
          · exact lt_of_le_of_lt hzc hlt
          · exact hl1 y hy2

/-- `find?` skips a prefix on which the predicate is everywhere false. -/
theorem find?_append_of_forall_false {α : Type} (l1 l2 : List α) (p : α → Bool)
    (h : ∀ y ∈ l1, p y = false) : (l1 ++ l2).find? p = l2.find? p := by
  induction l1 with
  | nil => simp
  | cons x xs ih =>
    rw [List.cons_append,
      List.find?_cons_of_neg _ (by simp [h x (List.mem_cons_self _ _)])]
    exact ih (fun y hy => h y (List.mem_cons_of_mem _ hy))

/-- The selected pair belongs to the counts list. -/
theorem pyMaxList_mem (L : List (String × Nat)) (hL : L ≠ []) : pyMaxList L ∈ L := by
  cases L with
  | nil => exact absurd rfl hL
  | cons c cs =>
    show cs.foldl pyMaxStep c ∈ c :: cs
    rcases foldl_pyMaxStep_mem cs c with h | h
    · rw [h]; exact List.mem_cons_self _ _
    · exact List.mem_cons_of_mem _ h

/-- The selected pair's count dominates every count. -/
theorem pyMaxList_ge (L : List (String × Nat)) (y : String × Nat) (hy : y ∈ L) :
    y.2 ≤ (pyMaxList L).2 := by
  cases L with
  | nil => simp at hy
  | cons c cs => exact foldl_pyMaxStep_ge cs c y hy

/-- Python max with the strict comparison returns exactly the first pair
whose count dominates all counts. -/
theorem pyMaxList_find (L : List (String × Nat)) (hL : L ≠ []) :
    L.find? (fun p => L.all fun q => q.2 ≤ p.2) = some (pyMaxList L) := by
  cases L with
  | nil => exact absurd rfl hL
  | cons c cs =>
    show (c :: cs).find? _ = some (cs.foldl pyMaxStep c)
    rcases foldl_pyMaxStep_spec cs c with ⟨heq, hall⟩ | ⟨l1, l2, hsplit, hlt, hl1, hl2⟩
    · rw [heq]
      refine List.find?_cons_of_pos _ ?_
      simp only [List.all_eq_true, decide_eq_true_eq]
      intro q hq
      rcases List.mem_cons.mp hq with rfl | hq2
      · exact le_refl _
      · exact hall q hq2
    · set r := cs.foldl pyMaxStep c with hr
      set pred := (fun p : String × Nat => (c :: cs).all fun q => decide (q.2 ≤ p.2)) with hpred
      have hrmem : r ∈ c :: cs := by
        rw [hsplit]
        exact List.mem_cons_of_mem _ (List.mem_append_right _ (List.mem_cons_self _ _))
      have hfalse : ∀ y ∈ c :: l1, pred y = false := by
        intro y hy
        have hyr : y.2 < r.2 := by
          rcases List.mem_cons.mp hy with rfl | hy2
          · exact hlt
          · exact hl1 y hy2
        rw [hpred]
        simp only [List.all_eq_false, decide_eq_true_eq]
        exact ⟨r, hrmem, by omega⟩
      have htrue : pred r = true := by
        rw [hpred]
        simp only [List.all_eq_true, decide_eq_true_eq]
        intro q hq
        rcases List.mem_cons.mp hq with rfl | hq2
        · exact le_of_lt hlt
        · rw [hsplit] at hq2
          rcases List.mem_append.mp hq2 with h1 | h2
          · exact le_of_lt (hl1 q h1)
          · rcases List.mem_cons.mp h2 with rfl | h3
            · exact le_refl _
            · exact hl2 q h3
      have hLsplit : c :: cs = (c :: l1) ++ r :: l2 := by
        conv_lhs => rw [hsplit]
        rfl
      rw [hLsplit, find?_append_of_forall_false _ _ pred hfalse,
        List.find?_cons_of_pos _ htrue]

/-- C6 (amended): for non-empty, non-all-whitespace text in which at
least one character matches some script's ranges, `detect_script` returns
exactly the first script, in the fixed enumeration order of the range
table, whose counter dominates every counter (so a strictly highest
counter wins, and ties go to the earliest script in the table). -/
theorem detect_script_first_max (text : List Nat)
    (h1 : text.isEmpty = false) (h2 : text.all pyIsSpace = false)
    (h3 : (countsList text).any (fun p => decide (0 < p.2)) = true) :
    ∃ c, 0 < c ∧
      (countsList text).find? (fun p => (countsList text).all fun q => q.2 ≤ p.2)
        = some (detect_script text, c) := by
  have hne : countsList text ≠ [] := by simp [countsList, SCRIPT_RANGES]
  have hfind := pyMaxList_find (countsList text) hne
  rcases List.any_eq_true.mp h3 with ⟨p, hp, hppos⟩
  have hppos2 : 0 < p.2 := of_decide_eq_true hppos
  have hpos : 0 < (pyMaxList (countsList text)).2 :=
    lt_of_lt_of_le hppos2 (pyMaxList_ge _ p hp)
  have hguard : (text.isEmpty || text.all pyIsSpace) = false := by
    rw [h1, h2]; rfl
  have hdet : detect_script text = (pyMaxList (countsList text)).1 := by
    simp only [detect_script, hguard, Bool.false_eq_true, if_false]
    simp [hpos]
  refine ⟨(pyMaxList (countsList text)).2, hpos, ?_⟩
  rw [hfind, hdet]

/-- Witness for the amended C6 at a concrete tie: one devanagari character
and one ASCII character tie at count one, and the earlier script in the
table (devanagari) wins. -/
theorem detect_script_first_max_witness :
    ([2325, 97] : List Nat).isEmpty = false ∧
    ([2325, 97] : List Nat).all pyIsSpace = false ∧
    ((countsList [2325, 97]).any fun p => decide (0 < p.2)) = true ∧
    (∃ c, 0 < c ∧
      (countsList [2325, 97]).find?
          (fun p => (countsList [2325, 97]).all fun q => q.2 ≤ p.2)
        = some (detect_script [2325, 97], c)) :=
  ⟨by decide, by decide, by decide,
    detect_script_first_max [2325, 97] (by decide) (by decide) (by decide)⟩

/-- Counterexample to C6 as stated: the text consisting of the single Thai
character U+0E01 is non-empty and not whitespace, yet matches no script's
ranges, so every counter is zero; the stated selection rule (ties go to
the first script in enumeration order) would pick devanagari, but
`detect_script` returns `unknown`, which is not a script of the table at
all. -/
theorem detect_script_first_max_ce :
    ([3585] : List Nat).isEmpty = false ∧
    ([3585] : List Nat).all pyIsSpace = false ∧
    ((countsList [3585]).all fun p => p.2 == 0) = true ∧
    (countsList [3585]).find? (fun p => (countsList [3585]).all fun q => q.2 ≤ p.2)
      = some ("devanagari", 0) ∧
    detect_script [3585] = "unknown" ∧
    ∀ p ∈ countsList [3585], p.1 ≠ "unknown" := by
  decide

/-- C8: `detect_script` returns `unknown` for empty input, for input that
is entirely whitespace, and for input in which every per-script counter is
zero. -/
theorem detect_script_unknown_cases (text : List Nat)
    (h : text = [] ∨ text.all pyIsSpace = true ∨
      (countsList text).all (fun p => p.2 == 0) = true) :
    detect_script text = "unknown" := by
  rcases h with h | h | h
  · subst h; rfl
  · simp [detect_script, h]
  · by_cases hg : (text.isEmpty || text.all pyIsSpace) = true
    · simp [detect_script, hg]
    · have hne : countsList text ≠ [] := by simp [countsList, SCRIPT_RANGES]
      have hmem : pyMaxList (countsList text) ∈ countsList text := pyMaxList_mem _ hne
      have hz : (pyMaxList (countsList text)).2 = 0 := by
        have hq := List.all_eq_true.mp h _ hmem
        simpa using hq
      simp [detect_script, hg, hz]

/-- Witness for C8: a codepoint outside every range gives all-zero
counters and `unknown`; the empty text gives `unknown`. -/
theorem detect_script_unknown_cases_witness :
    (([1000] : List Nat) = [] ∨ ([1000] : List Nat).all pyIsSpace = true ∨
      ((countsList [1000]).all fun p => p.2 == 0) = true) ∧
    detect_script [1000] = "unknown" :=
  ⟨Or.inr (Or.inr (by decide)),
    detect_script_unknown_cases [1000] (Or.inr (Or.inr (by decide)))⟩

/-- C10: the latin counter counts exactly the ASCII characters of the
text, whitespace and punctuation included; in particular one devanagari
character followed by two ASCII spaces is detected as latin. -/
theorem latin_counter_counts_every_ascii :
    (∀ text : List Nat, (countsList text).lookup "latin"
      = some ((text.filter fun cp => cp ≤ 127).length)) ∧
    detect_script [2325, 32, 32] = "latin" := by
  constructor
  · intro text
    have hf : List.filter (inRanges [(0x0000, 0x007F)]) text
        = List.filter (fun cp => decide (cp ≤ 127)) text := by
      apply List.filter_congr
      intro a _
      simp [inRanges, Nat.zero_le]
    have hlk : (countsList text).lookup "latin"
        = some (countMatches [(0x0000, 0x007F)] text) := rfl
    rw [hlk]
    unfold countMatches
    rw [hf]
  · decide

/-- Unfolding of `successors` at a two-element head. -/
theorem successors_cons_cons (c d : Nat) (rest : List Nat) :
    successors (c :: d :: rest) = some d :: successors (d :: rest) := by
  simp [successors]

/-- Unfolding of the schwa filter at a cons cell, for any word-character
classification `w`. -/
theorem schwaFilter_cons (w : Nat → Bool) (a : Nat × Option Nat)
    (l : List (Nat × Option Nat)) :
    List.filterMap (fun cd : Nat × Option Nat =>
      if cd.1 == 97 && boundaryAfter w cd.2 then none else some cd.1) (a :: l) =
    (if a.1 == 97 && boundaryAfter w a.2 then ([] : List Nat) else [a.1]) ++
      List.filterMap (fun cd : Nat × Option Nat =>
        if cd.1 == 97 && boundaryAfter w cd.2 then none else some cd.1) l := by
  cases h : (a.1 == 97 && boundaryAfter w a.2) with
  | true =>
    simp only [List.filterMap_cons, h]
    rfl
  | false =>
    simp only [List.filterMap_cons, h]
    rfl

/-- Unfolding of `schwaRemovedSpec` at a two-element head. -/
theorem schwaRemovedSpec_cons_cons (w : Nat → Bool) (c d : Nat) (rest : List Nat) :
    schwaRemovedSpec w (c :: d :: rest) =
      if c == 97 && !w d then schwaRemovedSpec w (d :: rest)
      else c :: schwaRemovedSpec w (d :: rest) := by
  have hzip : (c :: d :: rest).zip (successors (c :: d :: rest))
      = (c, some d) :: (d :: rest).zip (successors (d :: rest)) := by
    simp [successors]
  rw [schwaRemovedSpec, hzip, schwaFilter_cons, ← schwaRemovedSpec]
  show (if c == 97 && !w d then ([] : List Nat) else [c]) ++
      schwaRemovedSpec w (d :: rest) =
    if c == 97 && !w d then schwaRemovedSpec w (d :: rest)
    else c :: schwaRemovedSpec w (d :: rest)
  cases h : (c == 97 && !w d) with
  | true => rw [if_pos rfl, if_pos rfl]; rfl
  | false => rw [if_neg Bool.false_ne_true, if_neg Bool.false_ne_true]; rfl

/-- The single-pass removal of word-final `a` characters agrees with its
positional specification: exactly those characters are dropped that are
`a` and whose successor is absent or not a word character — for every
word-character classification `w`, hence for the regex engine's actual
one. -/
theorem dropSchwa_eq_spec (w : Nat → Bool) (l : List Nat) :
    dropSchwa w l = schwaRemovedSpec w l := by
  induction l with
  | nil => rfl
  | cons c rest ih =>
    cases rest with
    | nil =>
      have hzip : ([c] : List Nat).zip (successors [c]) = [(c, none)] := by
        simp [successors]
      rw [schwaRemovedSpec, hzip, schwaFilter_cons]
      show (if c == 97 then ([] : List Nat) else [c]) =
        (if (c == 97 && boundaryAfter w none) = true then ([] : List Nat) else [c]) ++
          List.filterMap (fun cd : Nat × Option Nat =>
            if cd.1 == 97 && boundaryAfter w cd.2 then none else some cd.1) []
      cases h : (c == 97) with
      | true =>
        rw [if_pos (show (true && boundaryAfter w none) = true from rfl)]
        rfl
      | false =>
        rw [if_neg (show ¬ ((false && boundaryAfter w none) = true) from Bool.false_ne_true)]
        rfl
    | cons d rest2 =>
      have hd : dropSchwa w (c :: d :: rest2) =
          if c == 97 && !w d then dropSchwa w (d :: rest2)
          else c :: dropSchwa w (d :: rest2) := rfl
      rw [hd, schwaRemovedSpec_cons_cons]
      by_cases h : (c == 97 && !w d) = true
      · rw [if_pos h, if_pos h, ih]
      · rw [if_neg h, if_neg h, ih]

/-- C7: for every word-character classification `w` of the regex engine,
the schwa-deletion post-processing step fires exactly when the detected
source script is devanagari and the target script is latin; when it fires
it removes every `a` standing at a word boundary and collapses and strips
whitespace, and for every other script pair it leaves the transliterated
text untouched. -/
theorem postProcess_schwa_gate (w : Nat → Bool) (d t : String) (x : List Nat) :
    (¬(d = "devanagari" ∧ t = "latin") → postProcess w d t x = x) ∧
    (d = "devanagari" → t = "latin" →
      postProcess w d t x = pyStrip (collapseWs (schwaRemovedSpec w x))) := by
  constructor
  · intro h
    rw [postProcess, if_neg]
    simp only [Bool.and_eq_true, decide_eq_true_eq]
    exact fun hc => h hc
  · intro hd ht
    subst hd; subst ht
    rw [postProcess, if_pos (by simp), schwa_delete_for_devanagari_to_latin,
      dropSchwa_eq_spec]
    cases x with
    | nil => rfl
    | cons c rest => rfl

/-- Witness for C7 at a concrete classification (ASCII lowercase letters
as word characters): a non-matching pair leaves the text untouched, and
the devanagari-to-latin pair rewrites it per the specification. -/
theorem postProcess_schwa_gate_witness :
    postProcess (fun cp => 97 ≤ cp && cp ≤ 122) "bengali" "latin" [97] = [97] ∧
    postProcess (fun cp => 97 ≤ cp && cp ≤ 122) "devanagari" "latin" [98, 97] =
      pyStrip (collapseWs (schwaRemovedSpec (fun cp => 97 ≤ cp && cp ≤ 122) [98, 97])) :=
  ⟨(postProcess_schwa_gate (fun cp => 97 ≤ cp && cp ≤ 122) "bengali" "latin" [97]).1
      (by decide),
    (postProcess_schwa_gate (fun cp => 97 ≤ cp && cp ≤ 122) "devanagari" "latin"
      [98, 97]).2 rfl rfl⟩

/-- C9: the text handed to speech synthesis is the original extracted
text whenever the detected script is not latin (independently of the
requested target script), and the transliterated text exactly when the
detected script is latin — for every engine and word-character
classification. -/
theorem tts_text_choice (engine : List Nat → String → String → Option (List Nat))
    (w : Nat → Bool) (extracted : List Nat) (target : String) :
    (detect_script extracted ≠ "latin" →
      ttsText engine w extracted target = extracted ∧
      ∀ t2, ttsText engine w extracted t2 = ttsText engine w extracted target) ∧
    (detect_script extracted = "latin" →
      ttsText engine w extracted target = pipelineTransliterated engine w extracted target) := by
  constructor
  · intro h
    constructor
    · simp [ttsText, h]
    · intro t2
      simp [ttsText, h]
  · intro h
    simp [ttsText, h]

/-- Witness for C9: a devanagari text is spoken as extracted, whatever the
target script, engine and word-character classification. -/
theorem tts_text_choice_witness :
    detect_script [2325] ≠ "latin" ∧
    ttsText (fun _ _ _ => none) (fun cp => 97 ≤ cp && cp ≤ 122) [2325] "latin" = [2325] :=
  ⟨by decide,
    ((tts_text_choice (fun _ _ _ => none) (fun cp => 97 ≤ cp && cp ≤ 122)
      [2325] "latin").1 (by decide)).1⟩

/-- Counterexample to C1 as stated: on a two-byte file, the parsed range
bytes=0-5 has start below the file size, so the claim requires a 206
response whose body is exactly 5 - 0 + 1 = 6 bytes; the code's file read
stops at end of file, producing a two-byte body (while the Content-Length
header still advertises 6). -/
theorem send_file_ranged_ce :
    (send_file_ranged [10, 20] (some (0, some 5))).status = 206 ∧
    (send_file_ranged [10, 20] (some (0, some 5))).body.length = 2 ∧
    (send_file_ranged [10, 20] (some (0, some 5))).body.length ≠ 5 - 0 + 1 ∧
    (send_file_ranged [10, 20] (some (0, some 5))).contentLength = some 6 := by
  decide

/-- C1 (amended): for a parsed range with start not exceeding the
effective end (the parsed end, or fileSize - 1 when absent): a start at or
past the file size yields status 416 with an empty body and no range
headers; otherwise status 206 with body the bytes of the file from offset
start through the effective end, capped at end of file — so of length
min(end - start + 1, fileSize - start) — with Content-Range holding
(start, end, fileSize), an Accept-Ranges header, and a Content-Length
header of end - start + 1 (which can exceed the body length when the end
lies beyond the last file offset). -/
theorem send_file_ranged_amended (file : List Nat) (start : Nat) (endOpt : Option Nat)
    (hse : start ≤ endOpt.getD (file.length - 1)) :
    (file.length ≤ start →
      send_file_ranged file (some (start, endOpt)) = ⟨416, [], none, false, none⟩) ∧
    (start < file.length →
      send_file_ranged file (some (start, endOpt)) =
        ⟨206, (file.drop start).take (endOpt.getD (file.length - 1) + 1 - start),
          some (start, endOpt.getD (file.length - 1), file.length), true,
          some ((endOpt.getD (file.length - 1) : Int) - (start : Int) + 1)⟩ ∧
      (send_file_ranged file (some (start, endOpt))).body.length =
        min (endOpt.getD (file.length - 1) + 1 - start) (file.length - start)) := by
  constructor
  · intro hge
    simp only [send_file_ranged]
    rw [if_pos hge]
  · intro hlt
    have hnot : ¬ file.length ≤ start := not_le.mpr hlt
    have hread : pyRead file start
        ((endOpt.getD (file.length - 1) : Int) - (start : Int) + 1)
        = (file.drop start).take (endOpt.getD (file.length - 1) + 1 - start) := by
      rw [pyRead, if_neg (by omega)]
      congr 1
      omega
    constructor
    · simp only [send_file_ranged]
      rw [if_neg hnot, hread]
    · simp only [send_file_ranged]
      rw [if_neg hnot]
      simp only [hread]
      rw [List.length_take, List.length_drop]

/-- Witness for the amended C1 on a three-byte file with range bytes=1-2. -/
theorem send_file_ranged_amended_witness :
    (1 : Nat) ≤ (some 2 : Option Nat).getD (([10, 20, 30] : List Nat).length - 1) ∧
    (send_file_ranged [10, 20, 30] (some (1, some 2)) =
        ⟨206, (([10, 20, 30] : List Nat).drop 1).take
            ((some 2 : Option Nat).getD (([10, 20, 30] : List Nat).length - 1) + 1 - 1),
          some (1, (some 2 : Option Nat).getD (([10, 20, 30] : List Nat).length - 1),
            ([10, 20, 30] : List Nat).length), true,
          some (((some 2 : Option Nat).getD (([10, 20, 30] : List Nat).length - 1) : Int)
            - (1 : Int) + 1)⟩ ∧
      (send_file_ranged [10, 20, 30] (some (1, some 2))).body.length =
        min ((some 2 : Option Nat).getD (([10, 20, 30] : List Nat).length - 1) + 1 - 1)
          (([10, 20, 30] : List Nat).length - 1)) :=
  ⟨by decide,
    (send_file_ranged_amended [10, 20, 30] 1 (some 2) (by decide)).2 (by decide)⟩
